import Mathlib

/-!
# Verification of the MonitRS syntax-highlighter engine

Shallow embedding of `src/crates/ui/src/highlighter/highlighter.rs`.

Modelling conventions:
* byte offsets are `Nat`; a half-open byte range `a..b` is the pair `(a, b)`;
* text (`ropey::Rope`) is a byte list `List Nat`;
* style payloads (`Hsla`, `FontWeight`, ...) are opaque to the algorithm
  (only copied and compared for equality), so each is modelled as `Nat`;
* the external tree-sitter objects (parser, trees, grammars, compiled
  queries, capture iterators) are abstracted: trees and grammar handles are
  `Nat`, and the parse / query-compile / match-enumeration capabilities are
  explicit function parameters of the operations that consume them.
-/

/-- `gpui::HighlightStyle`: seven independently-optional attributes
(`highlighter.rs` uses color, font_weight, font_style, background_color,
underline, strikethrough, fade_out). Payload values are abstract tokens. -/
structure HighlightStyle where
  color : Option Nat := none
  font_weight : Option Nat := none
  font_style : Option Nat := none
  background_color : Option Nat := none
  underline : Option Nat := none
  strikethrough : Option Nat := none
  fade_out : Option Nat := none
deriving DecidableEq, Repr

/-- `merge_highlight_style` (highlighter.rs:723-745): field-wise
"other on top" — each attribute of `other` overwrites when set. -/
def merge_highlight_style (style other : HighlightStyle) : HighlightStyle :=
  { color := match other.color with
      | some c => some c
      | none => style.color
    font_weight := match other.font_weight with
      | some v => some v
      | none => style.font_weight
    font_style := match other.font_style with
      | some v => some v
      | none => style.font_style
    background_color := match other.background_color with
      | some v => some v
      | none => style.background_color
    underline := match other.underline with
      | some v => some v
      | none => style.underline
    strikethrough := match other.strikethrough with
      | some v => some v
      | none => style.strikethrough
    fade_out := match other.fade_out with
      | some v => some v
      | none => style.fade_out }

/-- `HighlightItem` (highlighter.rs:88-94): a byte range plus capture name. -/
structure HighlightItem where
  range : Nat × Nat
  name : String
deriving DecidableEq, Repr

/-- A resolved span: byte range plus `HighlightStyle`, the element type of
`styles` / `unique_styles` results. -/
abbrev StyledSpan := (Nat × Nat) × HighlightStyle

/-- Insertion into a strictly ascending list of offsets; models one
`BTreeSet<usize>::insert` (set semantics, kept sorted, duplicates dropped). -/
def insertSorted (x : Nat) : List Nat → List Nat
  | [] => [x]
  | y :: ys =>
    if x < y then x :: y :: ys
    else if x = y then y :: ys
    else y :: insertSorted x ys

/-- The `intervals` set of `unique_styles` (highlighter.rs:655-670): the
total range's endpoints plus every span's start and end, as a sorted set. -/
def intervalsOf (total_range : Nat × Nat) (styles : List StyledSpan) : List Nat :=
  styles.foldl (fun acc rs => insertSorted rs.1.2 (insertSorted rs.1.1 acc))
    (insertSorted total_range.2 (insertSorted total_range.1 []))

/-- The `significant_intervals` set of `unique_styles` (highlighter.rs:667):
every input span's end offset.  Only membership is ever consulted, so a plain
list models the `BTreeSet`. -/
def significantOf (styles : List StyledSpan) : List Nat :=
  styles.map (fun rs => rs.1.2)

/-- One step of the "find the top-most style covering this interval" loop
(highlighter.rs:685-694). -/
def topStyleStep (interval : Nat × Nat) (top : Option HighlightStyle)
    (rs : StyledSpan) : Option HighlightStyle :=
  if rs.1.1 ≤ interval.1 ∧ interval.2 ≤ rs.1.2 then
    match top with
    | some t => some (merge_highlight_style t rs.2)
    | none => some rs.2
  else top

/-- The fold over all input spans computing the resolved style of one
candidate sub-interval (highlighter.rs:684-694). -/
def topStyleFold (interval : Nat × Nat) (styles : List StyledSpan) :
    Option HighlightStyle :=
  styles.foldl (topStyleStep interval) none

/-- The `for i in 0..intervals.len()-1` loop of `unique_styles`
(highlighter.rs:678-701): each consecutive pair of boundaries becomes a
sub-interval, empty ones are skipped, and each kept one is styled by the
top-most covering span (default when uncovered). -/
def buildResult (styles : List StyledSpan) : List Nat → List StyledSpan
  | [] => []
  | [_] => []
  | a :: b :: rest =>
    (if a < b then [((a, b), (topStyleFold (a, b) styles).getD {})] else [])
      ++ buildResult styles (b :: rest)

/-- The final merging loop of `unique_styles` (highlighter.rs:704-717):
adjacent sub-intervals with identical resolved styles are fused, except
across a significant boundary.  `last` is the mutable `merged.last_mut()`. -/
def mergeAdjacent (sig : List Nat) : StyledSpan → List StyledSpan → List StyledSpan
  | last, [] => [last]
  | last, (r, s) :: rest =>
    if last.1.2 = r.1 ∧ last.2 = s ∧ r.1 ∉ sig then
      mergeAdjacent sig ((last.1.1, r.2), last.2) rest
    else
      last :: mergeAdjacent sig (r, s) rest

/-- `unique_styles` (highlighter.rs:647-720): the interval normalizer. -/
def unique_styles (total_range : Nat × Nat) (styles : List StyledSpan) :
    List StyledSpan :=
  if styles.isEmpty then styles
  else
    let intervals := intervalsOf total_range styles
    let significant := significantOf styles
    match buildResult styles intervals with
    | [] => []
    | x :: xs => mergeAdjacent significant x xs

/-- `SyntaxHighlighter::styles` (highlighter.rs:591-630), abstracted over the
match-collector output `highlights` (the `match_styles` result) and over the
theme lookup.  Each matched range is clipped to the requested range (with the
`start > end` collapse of highlighter.rs:608-611), styled via the theme, and
the list is normalized unless empty (in which case one default span covering
the requested range is returned). -/
def stylesOf (range : Nat × Nat) (theme : String → Option HighlightStyle)
    (highlights : List HighlightItem) : List StyledSpan :=
  let styles := highlights.map (fun item =>
    let s := max item.range.1 range.1
    let e := min item.range.2 range.2
    let node_range := if s > e then (s, s) else (s, e)
    (node_range, (theme item.name).getD {}))
  if styles.length = 0 then
    [((range.1, range.2), {})]
  else
    unique_styles range styles

/-- The per-capture merge step of `SyntaxHighlighter::match_styles`
(highlighter.rs:388-421): compare the capture's node range and name against
the most recently appended span (an empty list acts as range `0..0` with no
name) and push accordingly. -/
def matchStep (highlights : List HighlightItem) (node_range : Nat × Nat)
    (highlight_name : String) : List HighlightItem :=
  let last_range := ((highlights.getLast?).map HighlightItem.range).getD (0, 0)
  let last_highlight_name := (highlights.getLast?).map HighlightItem.name
  if last_range.2 ≤ node_range.1 ∧ last_highlight_name = some highlight_name then
    highlights ++ [⟨(last_range.1, node_range.2), highlight_name⟩]
  else if last_range = node_range then
    highlights ++ [⟨node_range, last_highlight_name.getD highlight_name⟩]
  else
    highlights ++ [⟨node_range, highlight_name⟩]

/-- `tree_sitter::InputEdit`: byte offsets plus (row, column) points. -/
structure InputEdit where
  start_byte : Nat
  old_end_byte : Nat
  new_end_byte : Nat
  start_position : Nat × Nat
  old_end_position : Nat × Nat
  new_end_position : Nat × Nat
deriving DecidableEq, Repr

/-- The edit substituted by `update` when no edit descriptor is supplied
(highlighter.rs:320-327): start 0, old end 0, new end = text length, all
points (0, 0). -/
def defaultInputEdit (textLen : Nat) : InputEdit :=
  { start_byte := 0
    old_end_byte := 0
    new_end_byte := textLen
    start_position := (0, 0)
    old_end_position := (0, 0)
    new_end_position := (0, 0) }

/-- A compiled `tree_sitter::Query`, keeping the data the highlighter reads:
per-pattern source start offsets (`start_byte_for_pattern`, pattern count is
the length), capture names, and per-pattern property predicates
(key, positive). -/
structure Query where
  pattern_start_bytes : List Nat
  capture_names : List String
  property_predicates : List (List (String × Bool))
deriving DecidableEq, Repr

/-- A `LanguageRegistry` entry: grammar handle plus the three query sources
and the injectable sub-language names. -/
structure LanguageConfig where
  name : String
  language : Nat
  injections : String
  locals : String
  highlights : String
  injection_languages : List String
deriving DecidableEq, Repr

/-- The special-capture indices recorded by the constructor
(highlighter.rs:248-266); the scan keeps the last matching index. -/
structure CaptureIdx where
  injection_content : Option Nat := none
  injection_language : Option Nat := none
  local_def : Option Nat := none
  local_def_value : Option Nat := none
  local_ref : Option Nat := none
  local_scope : Option Nat := none
deriving DecidableEq, Repr

/-- The capture-name scan of highlighter.rs:255-266. -/
def scanCaptureIndices (names : List String) : CaptureIdx :=
  names.enum.foldl (fun acc p =>
    match p.2 with
    | "injection.content" => { acc with injection_content := some p.1 }
    | "injection.language" => { acc with injection_language := some p.1 }
    | "local.definition" => { acc with local_def := some p.1 }
    | "local.definition-value" => { acc with local_def_value := some p.1 }
    | "local.reference" => { acc with local_ref := some p.1 }
    | "local.scope" => { acc with local_scope := some p.1 }
    | _ => acc) {}

/-- `SyntaxHighlighter` (highlighter.rs:21-42).  The tree-sitter `Parser` is
not stored (its two capabilities, empty-parse and reparse, are passed to
`update`); trees are abstract `Nat` handles. -/
structure SyntaxHighlighter where
  language : String
  query : Option Query
  injection_queries : List (String × Query)
  locals_pattern_index : Nat
  highlights_pattern_index : Nat
  non_local_variable_patterns : List Bool
  injection_content_capture_index : Option Nat
  injection_language_capture_index : Option Nat
  local_scope_capture_index : Option Nat
  local_def_capture_index : Option Nat
  local_def_value_capture_index : Option Nat
  local_ref_capture_index : Option Nat
  text : List Nat
  tree : Option Nat
deriving DecidableEq, Repr

/-- `SyntaxHighlighter::build_combined_injections_query`
(highlighter.rs:176-306).  External capabilities are parameters: `registry`
is `LanguageRegistry::singleton().language`, `queryNew` is `Query::new`
(grammar, source) returning `none` on compile failure, `setLanguageOk` is
`Parser::set_language` success.  Returns `none` where the source returns
`Err`. -/
def build_combined_injections_query
    (registry : String → Option LanguageConfig)
    (queryNew : Nat → String → Option Query)
    (setLanguageOk : Nat → Bool)
    (lang : String) : Option SyntaxHighlighter :=
  match registry lang with
  | none => none
  | some config =>
    if setLanguageOk config.language then
      let locals_query_offset := config.injections.length
      let highlights_query_offset := (config.injections ++ config.locals).length
      let query_source := config.injections ++ config.locals ++ config.highlights
      match queryNew config.language query_source with
      | none => none
      | some query =>
        let counts := (List.range query.pattern_start_bytes.length).foldl
          (fun (acc : Nat × Nat) i =>
            let pattern_offset := query.pattern_start_bytes.getD i 0
            if pattern_offset < highlights_query_offset then
              ((if pattern_offset < locals_query_offset then acc.1 + 1 else acc.1),
                acc.2 + 1)
            else acc) (0, 0)
        let non_local_variable_patterns :=
          (List.range query.pattern_start_bytes.length).map (fun i =>
            (query.property_predicates.getD i []).any
              (fun pr => !pr.2 && pr.1 == "local"))
        let capIdx := scanCaptureIndices query.capture_names
        let injection_queries := config.injection_languages.foldl
          (fun m inj_language =>
            match registry inj_language with
            | some inj_config =>
              match queryNew inj_config.language inj_config.highlights with
              | some q => (inj_config.name, q) :: m
              | none => m
            | none => m) []
        some
          { language := config.name
            query := some query
            injection_queries := injection_queries
            locals_pattern_index := counts.1
            highlights_pattern_index := counts.2
            non_local_variable_patterns := non_local_variable_patterns
            injection_content_capture_index := capIdx.injection_content
            injection_language_capture_index := capIdx.injection_language
            local_scope_capture_index := capIdx.local_scope
            local_def_capture_index := capIdx.local_def
            local_def_value_capture_index := capIdx.local_def_value
            local_ref_capture_index := capIdx.local_ref
            text := []
            tree := none }
    else none

/-- `SyntaxHighlighter::new` (highlighter.rs:160-171): build for `lang`, on
failure warn and build for `"text"`.  The source unwraps the fallback, so the
result is `none` exactly when the source would panic. -/
def SyntaxHighlighter.new
    (registry : String → Option LanguageConfig)
    (queryNew : Nat → String → Option Query)
    (setLanguageOk : Nat → Bool)
    (lang : String) : Option SyntaxHighlighter :=
  match build_combined_injections_query registry queryNew setLanguageOk lang with
  | some result => some result
  | none => build_combined_injections_query registry queryNew setLanguageOk "text"

/-- `SyntaxHighlighter::update` (highlighter.rs:315-354).  `parseEmpty`
models `self.parser.parse("", None).unwrap()`, `applyEdit` models
`Tree::edit`, `parseWith old_tree text` models
`parser.parse_with_options(read-callback-of-text, Some(&old_tree), None)`.
Note that the source obtains the old tree with `self.tree.take()`, which
leaves `None` behind, and only stores a tree and the new text when the
reparse returns one.  The second component instruments the number of
`parse_with_options` invocations (0 or 1) for the reparse-count properties;
it is not part of the engine state. -/
def SyntaxHighlighter.update (self : SyntaxHighlighter)
    (parseEmpty : Nat) (applyEdit : Nat → InputEdit → Nat)
    (parseWith : Nat → List Nat → Option Nat)
    (edit : Option InputEdit) (text : List Nat) :
    SyntaxHighlighter × Nat :=
  if self.text = text then (self, 0)
  else
    let edit := edit.getD (defaultInputEdit text.length)
    let old_tree := applyEdit (self.tree.getD parseEmpty) edit
    match parseWith old_tree text with
    | none => ({ self with tree := none }, 1)
    | some new_tree => ({ self with tree := some new_tree, text := text }, 1)

/-- The inner `for cap in m.captures` loop of `handle_injection`
(highlighter.rs:472-489).  A capture is `(start, end, index)` in slice
coordinates; the result pairs the updated `last_end` with the spans pushed.
`continue` skips a capture, `break` abandons the rest of the match. -/
def injectionCaptureLoop (capture_names : List String)
    (start_offset end_offset : Nat) :
    Nat → List (Nat × Nat × Nat) → Nat × List ((Nat × Nat) × String)
  | last_end, [] => (last_end, [])
  | last_end, cap :: rest =>
    let node_range := (start_offset + cap.1, start_offset + cap.2.1)
    if node_range.1 < last_end then
      injectionCaptureLoop capture_names start_offset end_offset last_end rest
    else if node_range.2 > end_offset then
      (last_end, [])
    else
      match capture_names.get? cap.2.2 with
      | some highlight_name =>
        let next := injectionCaptureLoop capture_names start_offset end_offset
          node_range.2 rest
        (next.1, (node_range, highlight_name) :: next.2)
      | none =>
        injectionCaptureLoop capture_names start_offset end_offset last_end rest

/-- The outer `while let Some(m) = matches.next()` loop of
`handle_injection` (highlighter.rs:470-490): `last_end` threads through the
matches. -/
def injectionMatchLoop (capture_names : List String)
    (start_offset end_offset : Nat) :
    Nat → List (List (Nat × Nat × Nat)) → List ((Nat × Nat) × String)
  | _, [] => []
  | last_end, m :: ms =>
    let step := injectionCaptureLoop capture_names start_offset end_offset
      last_end m
    step.2 ++ injectionMatchLoop capture_names start_offset end_offset step.1 ms

/-- `SyntaxHighlighter::handle_injection` (highlighter.rs:433-493).
`clipLeft` / `clipRight` model `Rope::clip_offset` with `Bias::Left` /
`Bias::Right`, `subParse` models the fresh parse of the sliced content with
the target grammar, and `runMatches` models the bounded query-cursor match
enumeration over the sub-tree (captures in slice coordinates). -/
def handle_injection
    (injection_queries : List (String × Query))
    (registry : String → Option LanguageConfig)
    (setLanguageOk : Nat → Bool)
    (subParse : Nat → List Nat → Option Nat)
    (runMatches : Query → Nat → List (List (Nat × Nat × Nat)))
    (text : List Nat)
    (clipLeft clipRight : Nat → Nat)
    (injection_language : String)
    (node_start node_end : Nat) : List ((Nat × Nat) × String) :=
  let start_offset := clipLeft node_start
  let end_offset := clipRight node_end
  match List.lookup injection_language injection_queries with
  | none => []
  | some query =>
    let content := (text.drop start_offset).take (end_offset - start_offset)
    if content.length = 0 then []
    else
      match registry injection_language with
      | none => []
      | some config =>
        if setLanguageOk config.language then
          match subParse config.language content with
          | none => []
          | some tree =>
            injectionMatchLoop query.capture_names start_offset end_offset
              start_offset (runMatches query tree)
        else []

/-! ## Predicates used by the theorems -/

/-- Strict ascending order of an offset list (the shape every
`BTreeSet`-derived list has). -/
def strictSorted : List Nat → Prop
  | [] => True
  | [_] => True
  | a :: b :: rest => a < b ∧ strictSorted (b :: rest)

/-- `ChainCover a b l` says the spans of `l` tile the byte interval from `a`
to `b` exactly: the first starts at `a`, each next starts where the previous
ended, and the last ends at `b`.  This is the formal reading of "sorted,
pairwise non-overlapping, union equals exactly the range". -/
def ChainCover (a b : Nat) : List StyledSpan → Prop
  | [] => a = b
  | sp :: rest => sp.1.1 = a ∧ ChainCover sp.1.2 b rest

/-- All spans of the list are nonempty. -/
def SpansStrict (l : List StyledSpan) : Prop := ∀ sp ∈ l, sp.1.1 < sp.1.2

/-- The interval partition induced by a boundary list: one styled piece per
consecutive pair of boundaries, styled by `styleF`.  `buildResult` over a
strictly sorted boundary list computes exactly this (see
`buildResult_eq_refineOf`). -/
def refineOf (styleF : Nat × Nat → HighlightStyle) : List Nat → List StyledSpan
  | [] => []
  | [_] => []
  | x :: y :: rest => ((x, y), styleF (x, y)) :: refineOf styleF (y :: rest)

/-- `leChain le l stop` says the label spans of `l` follow each other without
overlap starting at or after `le`, and `stop` is the running `last_end` after
emitting them (`le` itself when nothing is emitted). -/
def leChain (le : Nat) : List ((Nat × Nat) × String) → Nat → Prop
  | [], stop => stop = le
  | sp :: rest, stop => le ≤ sp.1.1 ∧ leChain sp.1.2 rest stop

/-- Consecutive label spans do not overlap: each span starts at or after the
end of the previous one. -/
def spansNonOverlapping : List ((Nat × Nat) × String) → Bool
  | [] => true
  | [_] => true
  | x :: y :: rest => decide (x.1.2 ≤ y.1.1) && spansNonOverlapping (y :: rest)

/-- A sample engine state with everything but `text` and `tree` fixed, used
to instantiate the `update` theorems on concrete inputs. -/
def plainState (text : List Nat) (tree : Option Nat) : SyntaxHighlighter :=
  { language := "text"
    query := none
    injection_queries := []
    locals_pattern_index := 0
    highlights_pattern_index := 0
    non_local_variable_patterns := []
    injection_content_capture_index := none
    injection_language_capture_index := none
    local_scope_capture_index := none
    local_def_capture_index := none
    local_def_value_capture_index := none
    local_ref_capture_index := none
    text := text
    tree := tree }

/-- A plain-text pseudo-language registration (empty query sources), used to
instantiate the constructor theorems on concrete inputs. -/
def textConfig : LanguageConfig :=
  { name := "text"
    language := 0
    injections := ""
    locals := ""
    highlights := ""
    injection_languages := [] }

/-- A compiled query with no patterns and no captures. -/
def textQuery : Query :=
  { pattern_start_bytes := []
    capture_names := []
    property_predicates := [] }

/-- A registry knowing only the plain-text pseudo-language. -/
def demoRegistry : String → Option LanguageConfig :=
  fun s => if s = "text" then some textConfig else none

/-- A query compiler that always succeeds with the empty query. -/
def demoQueryNew : Nat → String → Option Query :=
  fun _ _ => some textQuery

/-- A sub-language query with one capture name, used to instantiate the
injection theorems on concrete inputs. -/
def mdQuery : Query :=
  { pattern_start_bytes := []
    capture_names := ["str"]
    property_predicates := [] }

/-- A registered sub-language configuration for the injection witnesses. -/
def mdConfig : LanguageConfig :=
  { name := "md"
    language := 1
    injections := ""
    locals := ""
    highlights := ""
    injection_languages := [] }

/-- A registry knowing only the `md` sub-language. -/
def mdRegistry : String → Option LanguageConfig :=
  fun s => if s = "md" then some mdConfig else none

/-! ## Ordering lemmas -/

theorem strictSorted_tail {a : Nat} {l : List Nat} (h : strictSorted (a :: l)) :
    strictSorted l := by
  cases l with
  | nil => trivial
  | cons b r => exact h.2

theorem strictSorted_head_lt {a : Nat} {l : List Nat} (h : strictSorted (a :: l)) :
    ∀ z ∈ l, a < z := by
  induction l generalizing a with
  | nil => intro z hz; cases hz
  | cons b r ih =>
    intro z hz
    rcases List.mem_cons.mp hz with rfl | hz
    · exact h.1
    · exact Nat.lt_trans h.1 (ih h.2 z hz)

theorem strictSorted_cons {a : Nat} {l : List Nat}
    (h1 : ∀ z ∈ l, a < z) (h2 : strictSorted l) : strictSorted (a :: l) := by
  cases l with
  | nil => trivial
  | cons b r => exact ⟨h1 b (List.mem_cons_self _ _), h2⟩

theorem mem_insertSorted {x : Nat} : ∀ {l : List Nat} {z : Nat},
    z ∈ insertSorted x l ↔ z = x ∨ z ∈ l := by
  intro l
  induction l with
  | nil => intro z; simp [insertSorted]
  | cons y ys ih =>
    intro z
    by_cases h1 : x < y
    · simp only [insertSorted, if_pos h1, List.mem_cons]
    · by_cases h2 : x = y
      · subst h2
        rw [insertSorted, if_neg h1, if_pos rfl]
        simp only [List.mem_cons]
        tauto
      · simp only [insertSorted, if_neg h1, if_neg h2, List.mem_cons, ih]
        tauto

theorem insertSorted_strictSorted {x : Nat} :
    ∀ {l : List Nat}, strictSorted l → strictSorted (insertSorted x l) := by
  intro l
  induction l with
  | nil => intro _; trivial
  | cons y ys ih =>
    intro h
    by_cases h1 : x < y
    · rw [insertSorted, if_pos h1]
      exact ⟨h1, h⟩
    · by_cases h2 : x = y
      · rw [insertSorted, if_neg h1, if_pos h2]
        exact h
      · rw [insertSorted, if_neg h1, if_neg h2]
        have hyx : y < x := by omega
        refine strictSorted_cons ?_ (ih (strictSorted_tail h))
        intro z hz
        rcases mem_insertSorted.mp hz with rfl | hz
        · exact hyx
        · exact strictSorted_head_lt h z hz

theorem insertSorted_ne_nil {x : Nat} {l : List Nat} : insertSorted x l ≠ [] := by
  cases l with
  | nil => simp [insertSorted]
  | cons y ys =>
    by_cases h1 : x < y
    · rw [insertSorted, if_pos h1]; simp
    · by_cases h2 : x = y
      · rw [insertSorted, if_neg h1, if_pos h2]; simp
      · rw [insertSorted, if_neg h1, if_neg h2]; simp

theorem intervalsOf_strictSorted (R : Nat × Nat) (S : List StyledSpan) :
    strictSorted (intervalsOf R S) := by
  unfold intervalsOf
  generalize hacc : insertSorted R.2 (insertSorted R.1 []) = acc
  have hs : strictSorted acc := by
    subst hacc
    exact insertSorted_strictSorted (insertSorted_strictSorted trivial)
  clear hacc
  induction S generalizing acc with
  | nil => exact hs
  | cons rs rest ih =>
    simp only [List.foldl_cons]
    exact ih _ (insertSorted_strictSorted (insertSorted_strictSorted hs))

theorem mem_intervalsOf {R : Nat × Nat} {S : List StyledSpan} {z : Nat} :
    z ∈ intervalsOf R S ↔
      z = R.1 ∨ z = R.2 ∨ ∃ rs ∈ S, z = rs.1.1 ∨ z = rs.1.2 := by
  unfold intervalsOf
  have base : ∀ (S : List StyledSpan) (acc : List Nat),
      z ∈ S.foldl (fun acc rs => insertSorted rs.1.2 (insertSorted rs.1.1 acc)) acc ↔
        z ∈ acc ∨ ∃ rs ∈ S, z = rs.1.1 ∨ z = rs.1.2 := by
    intro S
    induction S with
    | nil => intro acc; simp
    | cons rs rest ih =>
      intro acc
      rw [List.foldl_cons, ih]
      simp only [mem_insertSorted, List.mem_cons]
      constructor
      · rintro ((h | h | h) | ⟨rs2, h2, h3⟩)
        · exact Or.inr ⟨rs, Or.inl rfl, Or.inr h⟩
        · exact Or.inr ⟨rs, Or.inl rfl, Or.inl h⟩
        · exact Or.inl h
        · exact Or.inr ⟨rs2, Or.inr h2, h3⟩
      · rintro (h | ⟨rs2, h2, h3⟩)
        · exact Or.inl (Or.inr (Or.inr h))
        · rcases h2 with rfl | h2
          · rcases h3 with h3 | h3
            · exact Or.inl (Or.inr (Or.inl h3))
            · exact Or.inl (Or.inl h3)
          · exact Or.inr ⟨rs2, h2, h3⟩
  rw [base]
  simp only [mem_insertSorted, List.mem_nil_iff, or_false]
  constructor
  · rintro ((h | h) | h)
    · exact Or.inr (Or.inl h)
    · exact Or.inl h
    · exact Or.inr (Or.inr h)
  · rintro (h | h | h)
    · exact Or.inl (Or.inr h)
    · exact Or.inl (Or.inl h)
    · exact Or.inr h

theorem head_eq_of_min {l : List Nat} {a : Nat} (hs : strictSorted l)
    (hm : a ∈ l) (hmin : ∀ z ∈ l, a ≤ z) : l.head? = some a := by
  cases l with
  | nil => cases hm
  | cons b r =>
    rcases List.mem_cons.mp hm with rfl | hm
    · rfl
    · have : b < a := strictSorted_head_lt hs a hm
      have : a ≤ b := hmin b (List.mem_cons_self _ _)
      omega

theorem getLastD_eq_of_max {a d : Nat} :
    ∀ {l : List Nat}, strictSorted l → a ∈ l → (∀ z ∈ l, z ≤ a) → l.getLastD d = a := by
  intro l
  induction l generalizing d with
  | nil => intro _ hm; cases hm
  | cons b r ih =>
    intro hs hm hmax
    rw [List.getLastD_cons]
    cases r with
    | nil =>
      rcases List.mem_cons.mp hm with rfl | hm
      · rfl
      · cases hm
    | cons c t =>
      rcases List.mem_cons.mp hm with rfl | hm
      · have hc : a < c := hs.1
        have : c ≤ a := hmax c (by simp)
        omega
      · exact ih (strictSorted_tail hs) hm (fun z hz => hmax z (List.mem_cons_of_mem _ hz))

/-! ## Chain coverage: sorted, non-overlapping, union exactly an interval -/

theorem buildResult_chain (styles : List StyledSpan) :
    ∀ (l : List Nat) (a : Nat), strictSorted (a :: l) →
      ChainCover a (l.getLastD a) (buildResult styles (a :: l)) := by
  intro l
  induction l with
  | nil => intro a _; simp [buildResult, ChainCover]
  | cons b r ih =>
    intro a hs
    have hab : a < b := hs.1
    simp only [buildResult, if_pos hab, List.getLastD_cons]
    refine ⟨rfl, ?_⟩
    exact ih b hs.2

theorem buildResult_strict (styles : List StyledSpan) :
    ∀ l : List Nat, SpansStrict (buildResult styles l) := by
  intro l
  induction l with
  | nil => intro sp h; cases h
  | cons a r ih =>
    cases r with
    | nil => intro sp h; cases h
    | cons b t =>
      intro sp h
      simp only [buildResult] at h
      rcases List.mem_append.mp h with h | h
      · by_cases hab : a < b
        · rw [if_pos hab] at h
          rcases List.mem_singleton.mp h with rfl
          exact hab
        · rw [if_neg hab] at h
          cases h
      · exact ih sp h

theorem mergeAdjacent_chain (sig : List Nat) :
    ∀ (l : List StyledSpan) (last : StyledSpan) (b : Nat),
      ChainCover last.1.2 b l →
      ChainCover last.1.1 b (mergeAdjacent sig last l) := by
  intro l
  induction l with
  | nil =>
    intro last b h
    exact ⟨rfl, h⟩
  | cons rs rest ih =>
    intro last b h
    obtain ⟨h1, h2⟩ := h
    simp only [mergeAdjacent]
    split
    · exact ih ((last.1.1, rs.1.2), last.2) b h2
    · exact ⟨rfl, h1 ▸ ih (rs.1, rs.2) b h2⟩

theorem mergeAdjacent_strict (sig : List Nat) :
    ∀ (l : List StyledSpan) (last : StyledSpan),
      last.1.1 < last.1.2 → SpansStrict l →
      SpansStrict (mergeAdjacent sig last l) := by
  intro l
  induction l with
  | nil =>
    intro last hl _ sp hsp
    rcases List.mem_singleton.mp hsp with rfl
    exact hl
  | cons rs rest ih =>
    intro last hl hstrict
    simp only [mergeAdjacent]
    split
    · next hcond =>
      refine ih _ ?_ (fun sp hsp => hstrict sp (List.mem_cons_of_mem _ hsp))
      have : rs.1.1 < rs.1.2 := hstrict rs (List.mem_cons_self _ _)
      simp only
      omega
    · intro sp hsp
      rcases List.mem_cons.mp hsp with rfl | hsp
      · exact hl
      · exact ih (rs.1, rs.2) (hstrict rs (List.mem_cons_self _ _))
          (fun sp hsp => hstrict sp (List.mem_cons_of_mem _ hsp)) sp hsp

theorem unique_styles_chain {R : Nat × Nat} {S : List StyledSpan} (hS : S ≠ [])
    {a b : Nat} (ha : (intervalsOf R S).head? = some a)
    (hb : (intervalsOf R S).getLastD 0 = b) :
    ChainCover a b (unique_styles R S) ∧ SpansStrict (unique_styles R S) := by
  obtain ⟨s0, S', rfl⟩ := List.exists_cons_of_ne_nil hS
  unfold unique_styles
  simp only [List.isEmpty_cons, Bool.false_eq_true, if_false]
  cases hI : intervalsOf R (s0 :: S') with
  | nil =>
    have : R.1 ∈ intervalsOf R (s0 :: S') := mem_intervalsOf.mpr (Or.inl rfl)
    rw [hI] at this
    cases this
  | cons i0 irest =>
    rw [hI] at ha hb
    have ha2 : i0 = a := by
      simpa using ha
    subst ha2
    rw [List.getLastD_cons] at hb
    have hsorted : strictSorted (i0 :: irest) := by
      have := intervalsOf_strictSorted R (s0 :: S')
      rwa [hI] at this
    have hchain := buildResult_chain (s0 :: S') irest i0 hsorted
    have hstrict := buildResult_strict (s0 :: S') (i0 :: irest)
    rw [hb] at hchain
    cases hBR : buildResult (s0 :: S') (i0 :: irest) with
    | nil =>
      rw [hBR] at hchain
      exact ⟨hchain, fun sp hsp => absurd hsp (List.not_mem_nil sp)⟩
    | cons x xs =>
      rw [hBR] at hchain hstrict
      obtain ⟨hx1, hx2⟩ := hchain
      constructor
      · exact hx1 ▸ mergeAdjacent_chain _ xs x b hx2
      · exact mergeAdjacent_strict _ xs x (hstrict x (List.mem_cons_self _ _))
          (fun sp hsp => hstrict sp (List.mem_cons_of_mem _ hsp))

/-! ## Claim C1 -/

/-- C1, as stated, is false: a matched span lying entirely beyond the
requested range `0..10` survives clipping as the zero-width marker `20..20`
(highlighter.rs:608-611 sets `end = start`, keeping `start = 20 > 10`), and
the normalized output is the single span `0..20`, whose union is strictly
larger than the requested range. -/
theorem claim1_counterexample :
    ¬ ChainCover 0 10 (stylesOf (0, 10) (fun _ => none) [⟨(20, 30), "x"⟩]) := by
  intro h
  have hval : stylesOf (0, 10) (fun _ => none) [⟨(20, 30), "x"⟩]
      = [((0, 20), {})] := by decide
  rw [hval] at h
  obtain ⟨-, h2⟩ := h
  have h2e : (20 : Nat) = 10 := h2
  exact absurd h2e (by decide)

/-- C1 (amended): for every proper requested range `R` and every match list
in which no span starts beyond the end of `R`, the output of `styles` tiles
`R` exactly (sorted, pairwise non-overlapping, union exactly `R`), every
output span is well-formed, and an empty match list yields exactly one
fully-default span covering `R`. -/
theorem claim1_styles_cover_range (R : Nat × Nat)
    (theme : String → Option HighlightStyle) (highlights : List HighlightItem)
    (hR : R.1 ≤ R.2) (hin : ∀ it ∈ highlights, it.range.1 ≤ R.2) :
    ChainCover R.1 R.2 (stylesOf R theme highlights) ∧
    (∀ sp ∈ stylesOf R theme highlights, sp.1.1 ≤ sp.1.2) ∧
    (highlights = [] → stylesOf R theme highlights = [((R.1, R.2), {})]) := by
  cases highlights with
  | nil =>
    refine ⟨⟨rfl, rfl⟩, ?_, fun _ => rfl⟩
    intro sp hsp
    rcases List.mem_singleton.mp hsp with rfl
    exact hR
  | cons it0 its =>
    rw [stylesOf]
    simp only [List.length_map, List.length_cons]
    rw [if_neg (by simp)]
    set f : HighlightItem → StyledSpan := fun item =>
      let s := max item.range.1 R.1
      let e := min item.range.2 R.2
      let node_range := if s > e then (s, s) else (s, e)
      (node_range, (theme item.name).getD {}) with hf
    set S := (it0 :: its).map f with hSdef
    have hS : S ≠ [] := by simp [hSdef]
    have hbound : ∀ rs ∈ S, (R.1 ≤ rs.1.1 ∧ rs.1.1 ≤ R.2) ∧
        (R.1 ≤ rs.1.2 ∧ rs.1.2 ≤ R.2) := by
      intro rs hrs
      obtain ⟨it, hit, rfl⟩ := List.mem_map.mp hrs
      have h1 : R.1 ≤ max it.range.1 R.1 := Nat.le_max_right _ _
      have h2 : max it.range.1 R.1 ≤ R.2 :=
        Nat.max_le.mpr ⟨hin it hit, hR⟩
      by_cases hcmp : max it.range.1 R.1 > min it.range.2 R.2
      · simp only [hf, if_pos hcmp]
        exact ⟨⟨h1, h2⟩, ⟨h1, h2⟩⟩
      · simp only [hf, if_neg hcmp]
        refine ⟨⟨h1, h2⟩, ⟨?_, Nat.min_le_right _ _⟩⟩
        exact le_trans h1 (Nat.le_of_not_lt hcmp)
    have hmemI : ∀ z ∈ intervalsOf R S, R.1 ≤ z ∧ z ≤ R.2 := by
      intro z hz
      rcases mem_intervalsOf.mp hz with rfl | rfl | ⟨rs, hrs, hcase⟩
      · exact ⟨le_refl _, hR⟩
      · exact ⟨hR, le_refl _⟩
      · rcases hcase with rfl | rfl
        · exact (hbound rs hrs).1
        · exact (hbound rs hrs).2
    have ha : (intervalsOf R S).head? = some R.1 :=
      head_eq_of_min (intervalsOf_strictSorted R S)
        (mem_intervalsOf.mpr (Or.inl rfl)) (fun z hz => (hmemI z hz).1)
    have hb : (intervalsOf R S).getLastD 0 = R.2 :=
      getLastD_eq_of_max (intervalsOf_strictSorted R S)
        (mem_intervalsOf.mpr (Or.inr (Or.inl rfl))) (fun z hz => (hmemI z hz).2)
    obtain ⟨hchain, hstrict⟩ := unique_styles_chain hS ha hb
    exact ⟨hchain, fun sp hsp => Nat.le_of_lt (hstrict sp hsp), by simp⟩

/-- Witness for C1 on a concrete in-range match list. -/
theorem claim1_witness :
    ChainCover 0 10 (stylesOf (0, 10) (fun _ => none) [⟨(3, 7), "x"⟩]) :=
  (claim1_styles_cover_range (0, 10) (fun _ => none) [⟨(3, 7), "x"⟩]
    (by decide) (by decide)).1

/-! ## Claim C4 -/

/-- C4, as stated, is false: on a capture starting exactly at the last
span's end with the same label, `match_styles` pushes a new covering span
(highlighter.rs:403-409) instead of extending the last one in place, so the
list grows. -/
theorem claim4_counterexample :
    matchStep [⟨(0, 2), "kw"⟩] (2, 4) "kw"
        = [⟨(0, 2), "kw"⟩, ⟨(0, 4), "kw"⟩] ∧
    (matchStep [⟨(0, 2), "kw"⟩] (2, 4) "kw").length ≠ 1 := by
  constructor
  · decide
  · decide

/-- C4 (amended): when a capture's range starts exactly where the most
recently appended span ends and carries the same label, the collector
appends a new span stretching from the last span's start to the capture's
end — the previous last span stays in the list, the length grows by one, and
the new last element covers the union of the two ranges. -/
theorem claim4_adjacent_same_label_append
    (highlights : List HighlightItem) (node_range : Nat × Nat) (name : String)
    (last : HighlightItem) (hlast : highlights.getLast? = some last)
    (hadj : last.range.2 = node_range.1) (hname : last.name = name) :
    matchStep highlights node_range name
      = highlights ++ [⟨(last.range.1, node_range.2), name⟩] ∧
    (matchStep highlights node_range name).length = highlights.length + 1 := by
  have hcond : ((highlights.getLast?).map HighlightItem.range).getD (0, 0) =
      last.range := by rw [hlast]; rfl
  have hname2 : (highlights.getLast?).map HighlightItem.name = some name := by
    rw [hlast]
    show some last.name = some name
    rw [hname]
  have hmain : matchStep highlights node_range name
      = highlights ++ [⟨(last.range.1, node_range.2), name⟩] := by
    unfold matchStep
    rw [hcond, hname2, if_pos ⟨Nat.le_of_eq hadj, rfl⟩]
  exact ⟨hmain, by rw [hmain]; simp⟩

/-- Witness for C4 at a concrete adjacent same-label capture. -/
theorem claim4_witness :
    matchStep [⟨(0, 2), "kw"⟩] (2, 5) "kw"
      = [⟨(0, 2), "kw"⟩, ⟨(0, 5), "kw"⟩] :=
  (claim4_adjacent_same_label_append [⟨(0, 2), "kw"⟩] (2, 5) "kw"
    ⟨(0, 2), "kw"⟩ rfl rfl rfl).1

/-! ## Claim C6 -/

/-- C6: the literal regression of `test_unique_styles`
(highlighter.rs:805-840); `clean` is the all-default style and red, green,
blue are the color tokens 0, 1, 2. -/
theorem claim6_regression :
    unique_styles (0, 65)
      [((2, 10), {}), ((2, 10), {}), ((5, 11), { color := some 0 }),
       ((2, 6), {}), ((10, 15), { color := some 1 }), ((15, 30), {}),
       ((29, 35), { color := some 2 }), ((35, 40), { color := some 1 }),
       ((45, 60), { color := some 2 })]
      = [((0, 5), {}), ((5, 6), { color := some 0 }),
         ((6, 10), { color := some 0 }), ((10, 11), { color := some 1 }),
         ((11, 15), { color := some 1 }), ((15, 29), {}),
         ((29, 30), { color := some 2 }), ((30, 35), { color := some 2 }),
         ((35, 40), { color := some 1 }), ((40, 45), {}),
         ((45, 60), { color := some 2 }), ((60, 65), {})] := by
  decide

/-! ## Claim C2 -/

/-- C2, as stated, is false: `update` obtains the previous tree with
`self.tree.take()` (highlighter.rs:329-332), so when the reparse returns no
tree the early return leaves the stored tree cleared to `None` — the state
is partially mutated. -/
theorem claim2_counterexample :
    ((plainState [1] (some 7)).update 0 (fun t _ => t) (fun _ _ => none)
        none [2]).1
      ≠ plainState [1] (some 7) := by
  decide

/-- C2 (amended): when the reparse fails, the stored text is unchanged but
the stored tree is cleared to `None` (it was taken, edited, and dropped), so
the next update performs a full parse. -/
theorem claim2_update_failure_clears_tree
    (self : SyntaxHighlighter) (parseEmpty : Nat)
    (applyEdit : Nat → InputEdit → Nat)
    (parseWith : Nat → List Nat → Option Nat)
    (edit : Option InputEdit) (text : List Nat)
    (hne : self.text ≠ text)
    (hfail : parseWith (applyEdit (self.tree.getD parseEmpty)
        (edit.getD (defaultInputEdit text.length))) text = none) :
    (self.update parseEmpty applyEdit parseWith edit text).1.text = self.text ∧
    (self.update parseEmpty applyEdit parseWith edit text).1.tree = none := by
  simp only [SyntaxHighlighter.update]
  rw [if_neg hne, hfail]
  exact ⟨rfl, rfl⟩

/-- Witness for C2's amended statement with an always-failing parser. -/
theorem claim2_witness :
    ((plainState [1] (some 7)).update 0 (fun t _ => t) (fun _ _ => none)
        none [2]).1.text = [1] ∧
    ((plainState [1] (some 7)).update 0 (fun t _ => t) (fun _ _ => none)
        none [2]).1.tree = none :=
  claim2_update_failure_clears_tree (plainState [1] (some 7)) 0
    (fun t _ => t) (fun _ _ => none) none [2] (by decide) rfl

/-! ## Claim C3 -/

/-- C3, as stated, is false: the substituted edit has `old_end_byte = 0`
(highlighter.rs:322), not the previous text's length, so it describes an
insertion of the whole new text at offset 0 rather than a whole-text
replacement.  Instrumenting `applyEdit` to record the edit's old end shows
the two calls differ on a stored text of length 5. -/
theorem claim3_counterexample :
    ((plainState [1, 1, 1, 1, 1] (some 3)).update 0
        (fun _ e => e.old_end_byte) (fun t _ => some t) none [2, 2]).1
      ≠ ((plainState [1, 1, 1, 1, 1] (some 3)).update 0
          (fun _ e => e.old_end_byte) (fun t _ => some t)
          (some { start_byte := 0, old_end_byte := 5, new_end_byte := 2,
                  start_position := (0, 0), old_end_position := (0, 0),
                  new_end_position := (0, 0) }) [2, 2]).1 := by
  decide

/-- C3 (amended): a call to `update` without an edit descriptor behaves
exactly like a call with the substituted default edit, whose old range is
the empty range `0..0` and whose new range is `0..len(new text)` — i.e. the
whole new text inserted at offset 0, a full (not incremental-replacement)
description. -/
theorem claim3_default_edit_insertion
    (self : SyntaxHighlighter) (parseEmpty : Nat)
    (applyEdit : Nat → InputEdit → Nat)
    (parseWith : Nat → List Nat → Option Nat) (text : List Nat) :
    self.update parseEmpty applyEdit parseWith none text
      = self.update parseEmpty applyEdit parseWith
          (some (defaultInputEdit text.length)) text ∧
    (defaultInputEdit text.length).start_byte = 0 ∧
    (defaultInputEdit text.length).old_end_byte = 0 ∧
    (defaultInputEdit text.length).new_end_byte = text.length :=
  ⟨rfl, rfl, rfl, rfl⟩

/-! ## Claim C7 -/

/-- C7: an `update` whose text equals the stored text is a no-op performing
no reparse (highlighter.rs:316-318); consequently, with a parser that always
returns a tree (tree-sitter's parse cannot fail when no cancellation options
are set), two consecutive updates with the same text invoke the reparse at
most once. -/
theorem claim7_update_noop
    (self : SyntaxHighlighter) (parseEmpty : Nat)
    (applyEdit : Nat → InputEdit → Nat)
    (parseWith : Nat → List Nat → Option Nat)
    (e1 e2 : Option InputEdit) (text : List Nat) :
    (self.text = text →
      self.update parseEmpty applyEdit parseWith e1 text = (self, 0)) ∧
    ((∀ tr tx, (parseWith tr tx).isSome = true) →
      ((self.update parseEmpty applyEdit parseWith e1 text).1.update
          parseEmpty applyEdit parseWith e2 text).2
        + (self.update parseEmpty applyEdit parseWith e1 text).2 ≤ 1) := by
  constructor
  · intro h
    unfold SyntaxHighlighter.update
    rw [if_pos h]
  · intro htotal
    by_cases h : self.text = text
    · have h1 : self.update parseEmpty applyEdit parseWith e1 text = (self, 0) := by
        unfold SyntaxHighlighter.update
        rw [if_pos h]
      have h2 : self.update parseEmpty applyEdit parseWith e2 text = (self, 0) := by
        unfold SyntaxHighlighter.update
        rw [if_pos h]
      rw [h1]
      simp only
      rw [h2]
      simp
    · obtain ⟨t, ht⟩ := Option.isSome_iff_exists.mp
        (htotal (applyEdit (self.tree.getD parseEmpty)
          (e1.getD (defaultInputEdit text.length))) text)
      have h1 : self.update parseEmpty applyEdit parseWith e1 text
          = ({ self with tree := some t, text := text }, 1) := by
        simp only [SyntaxHighlighter.update]
        rw [if_neg h, ht]
      have h2 : ({ self with tree := some t, text := text } :
            SyntaxHighlighter).update parseEmpty applyEdit parseWith e2 text
          = ({ self with tree := some t, text := text }, 0) := by
        unfold SyntaxHighlighter.update
        rw [if_pos rfl]
      rw [h1]
      simp only
      rw [h2]

/-- Witness for C7: both conjuncts at concrete inputs. -/
theorem claim7_witness :
    ((plainState [3] none).update 0 (fun t _ => t) (fun _ _ => some 1)
        none [3] = (plainState [3] none, 0)) ∧
    (((plainState [3] none).update 0 (fun t _ => t) (fun _ _ => some 1)
          none [9]).1.update 0 (fun t _ => t) (fun _ _ => some 1) none [9]).2
      + ((plainState [3] none).update 0 (fun t _ => t) (fun _ _ => some 1)
          none [9]).2 ≤ 1 :=
  ⟨(claim7_update_noop (plainState [3] none) 0 (fun t _ => t)
      (fun _ _ => some 1) none none [3]).1 rfl,
   (claim7_update_noop (plainState [3] none) 0 (fun t _ => t)
      (fun _ _ => some 1) none none [9]).2 (fun _ _ => rfl)⟩

/-! ## Claim C8 -/

/-- C8: when the plain-text pseudo-language `"text"` is registered and its
(empty) query compiles, engine construction never propagates an error for
any requested language name: if building the requested language fails (not
registered, grammar rejected, or query compilation failed), `new` falls back
to building `"text"`, and the result is always a valid instance. -/
theorem claim8_new_total_fallback
    (registry : String → Option LanguageConfig)
    (queryNew : Nat → String → Option Query)
    (setLanguageOk : Nat → Bool) (lang : String)
    (cfgT : LanguageConfig) (qT : Query)
    (hreg : registry "text" = some cfgT)
    (hlang : setLanguageOk cfgT.language = true)
    (hq : queryNew cfgT.language
        (cfgT.injections ++ cfgT.locals ++ cfgT.highlights) = some qT) :
    (SyntaxHighlighter.new registry queryNew setLanguageOk lang).isSome = true ∧
    (build_combined_injections_query registry queryNew setLanguageOk lang = none →
      SyntaxHighlighter.new registry queryNew setLanguageOk lang
        = build_combined_injections_query registry queryNew setLanguageOk "text") := by
  have htext : (build_combined_injections_query registry queryNew setLanguageOk
      "text").isSome = true := by
    unfold build_combined_injections_query
    rw [hreg]
    simp only [hlang, if_true, hq]
    rfl
  constructor
  · unfold SyntaxHighlighter.new
    cases hb : build_combined_injections_query registry queryNew setLanguageOk lang with
    | none => exact htext
    | some r => rfl
  · intro hnone
    unfold SyntaxHighlighter.new
    rw [hnone]

/-- Witness for C8: an unregistered language name falls back to the
registered plain-text pseudo-language. -/
theorem claim8_witness :
    (SyntaxHighlighter.new demoRegistry demoQueryNew (fun _ => true)
      "rust").isSome = true :=
  (claim8_new_total_fallback demoRegistry demoQueryNew (fun _ => true) "rust"
    textConfig textQuery (by decide) rfl rfl).1

/-! ## Claims C9 and C10: injection loop lemmas -/

theorem injectionCaptureLoop_mem (names : List String) (so eo : Nat) :
    ∀ (caps : List (Nat × Nat × Nat)) (le : Nat)
      (sp : (Nat × Nat) × String),
      sp ∈ (injectionCaptureLoop names so eo le caps).2 →
      sp.1.2 ≤ eo ∧ ∃ c ∈ caps, sp.1 = (so + c.1, so + c.2.1) ∧
        names.get? c.2.2 = some sp.2 := by
  intro caps
  induction caps with
  | nil => intro le sp hsp; cases hsp
  | cons cap rest ih =>
    intro le sp hsp
    rw [injectionCaptureLoop] at hsp
    by_cases h1 : so + cap.1 < le
    · rw [if_pos h1] at hsp
      obtain ⟨hb, c, hc, hrest⟩ := ih le sp hsp
      exact ⟨hb, c, List.mem_cons_of_mem _ hc, hrest⟩
    · rw [if_neg h1] at hsp
      by_cases h2 : so + cap.2.1 > eo
      · rw [if_pos h2] at hsp
        cases hsp
      · rw [if_neg h2] at hsp
        cases hname : names.get? cap.2.2 with
        | some nm =>
          rw [hname] at hsp
          simp only [List.mem_cons] at hsp
          rcases hsp with rfl | hsp
          · exact ⟨Nat.le_of_not_lt h2, cap, List.mem_cons_self _ _, rfl, hname⟩
          · obtain ⟨hb, c, hc, hrest⟩ := ih (so + cap.2.1) sp hsp
            exact ⟨hb, c, List.mem_cons_of_mem _ hc, hrest⟩
        | none =>
          rw [hname] at hsp
          obtain ⟨hb, c, hc, hrest⟩ := ih le sp hsp
          exact ⟨hb, c, List.mem_cons_of_mem _ hc, hrest⟩

theorem injectionMatchLoop_mem (names : List String) (so eo : Nat) :
    ∀ (ms : List (List (Nat × Nat × Nat))) (le : Nat)
      (sp : (Nat × Nat) × String),
      sp ∈ injectionMatchLoop names so eo le ms →
      sp.1.2 ≤ eo ∧ ∃ m ∈ ms, ∃ c ∈ m, sp.1 = (so + c.1, so + c.2.1) ∧
        names.get? c.2.2 = some sp.2 := by
  intro ms
  induction ms with
  | nil => intro le sp hsp; cases hsp
  | cons m rest ih =>
    intro le sp hsp
    rw [injectionMatchLoop] at hsp
    rcases List.mem_append.mp hsp with hsp | hsp
    · obtain ⟨hb, c, hc, hrest⟩ := injectionCaptureLoop_mem names so eo m le sp hsp
      exact ⟨hb, m, List.mem_cons_self _ _, c, hc, hrest⟩
    · obtain ⟨hb, m2, hm2, c, hc, hrest⟩ :=
        ih (injectionCaptureLoop names so eo le m).1 sp hsp
      exact ⟨hb, m2, List.mem_cons_of_mem _ hm2, c, hc, hrest⟩

theorem leChain_append {le m stop : Nat} :
    ∀ {l1 l2 : List ((Nat × Nat) × String)},
      leChain le l1 m → leChain m l2 stop → leChain le (l1 ++ l2) stop := by
  intro l1
  induction l1 generalizing le with
  | nil =>
    intro l2 h1 h2
    rw [h1] at h2
    exact h2
  | cons sp rest ih =>
    intro l2 h1 h2
    exact ⟨h1.1, ih h1.2 h2⟩

theorem injectionCaptureLoop_chain (names : List String) (so eo : Nat) :
    ∀ (caps : List (Nat × Nat × Nat)) (le : Nat),
      leChain le (injectionCaptureLoop names so eo le caps).2
        (injectionCaptureLoop names so eo le caps).1 := by
  intro caps
  induction caps with
  | nil => intro le; rfl
  | cons cap rest ih =>
    intro le
    rw [injectionCaptureLoop]
    by_cases h1 : so + cap.1 < le
    · rw [if_pos h1]
      exact ih le
    · rw [if_neg h1]
      by_cases h2 : so + cap.2.1 > eo
      · rw [if_pos h2]
        rfl
      · rw [if_neg h2]
        cases hname : names.get? cap.2.2 with
        | some nm =>
          exact ⟨Nat.le_of_not_lt h1, ih (so + cap.2.1)⟩
        | none =>
          exact ih le

theorem injectionMatchLoop_chain (names : List String) (so eo : Nat) :
    ∀ (ms : List (List (Nat × Nat × Nat))) (le : Nat),
      ∃ stop, leChain le (injectionMatchLoop names so eo le ms) stop := by
  intro ms
  induction ms with
  | nil => intro le; exact ⟨le, rfl⟩
  | cons m rest ih =>
    intro le
    obtain ⟨stop, hrest⟩ := ih (injectionCaptureLoop names so eo le m).1
    exact ⟨stop, leChain_append (injectionCaptureLoop_chain names so eo m le) hrest⟩

theorem leChain_nonOverlapping {stop : Nat} :
    ∀ {l : List ((Nat × Nat) × String)} {le : Nat},
      leChain le l stop → spansNonOverlapping l = true := by
  intro l
  induction l with
  | nil => intro le _; rfl
  | cons x rest ih =>
    intro le h
    cases rest with
    | nil => rfl
    | cons y t =>
      rw [spansNonOverlapping]
      rw [Bool.and_eq_true, decide_eq_true_iff]
      exact ⟨h.2.1, ih h.2⟩

/-! ## Claim C9 -/

/-- C9: every label span emitted by the injection handler lies fully inside
the boundary-clipped content range (start at or after the clipped slice
start, end at or before the clipped slice end) and is precisely a sub-parse
capture's range translated by adding the slice start offset; its label is
the sub-language query's capture name for that capture. -/
theorem claim9_injection_spans_translated
    (injection_queries : List (String × Query))
    (registry : String → Option LanguageConfig)
    (setLanguageOk : Nat → Bool) (subParse : Nat → List Nat → Option Nat)
    (runMatches : Query → Nat → List (List (Nat × Nat × Nat)))
    (text : List Nat) (clipLeft clipRight : Nat → Nat)
    (injection_language : String) (node_start node_end : Nat)
    (sp : (Nat × Nat) × String)
    (hsp : sp ∈ handle_injection injection_queries registry setLanguageOk
      subParse runMatches text clipLeft clipRight injection_language
      node_start node_end) :
    clipLeft node_start ≤ sp.1.1 ∧ sp.1.2 ≤ clipRight node_end ∧
    ∃ query, List.lookup injection_language injection_queries = some query ∧
    ∃ config, registry injection_language = some config ∧
    ∃ tree, subParse config.language
        ((text.drop (clipLeft node_start)).take
          (clipRight node_end - clipLeft node_start)) = some tree ∧
    ∃ m ∈ runMatches query tree, ∃ c ∈ m,
      sp.1 = (clipLeft node_start + c.1, clipLeft node_start + c.2.1) ∧
      query.capture_names.get? c.2.2 = some sp.2 := by
  simp only [handle_injection] at hsp
  split at hsp
  · cases hsp
  · rename_i query hq
    split at hsp
    · cases hsp
    · split at hsp
      · cases hsp
      · rename_i config hcfg
        split at hsp
        · split at hsp
          · cases hsp
          · rename_i tree htr
            obtain ⟨hb, m, hm, c, hc, heq, hname⟩ :=
              injectionMatchLoop_mem query.capture_names (clipLeft node_start)
                (clipRight node_end) (runMatches query tree)
                (clipLeft node_start) sp hsp
            refine ⟨?_, hb, query, hq, config, hcfg, tree, htr, m, hm, c, hc,
              heq, hname⟩
            rw [heq]
            exact Nat.le_add_right _ _
        · cases hsp

/-- Witness for C9 on a concrete injection with one sub-parse capture. -/
theorem claim9_witness :
    1 ≤ 2 ∧ (3 : Nat) ≤ 4 ∧
    ∃ query, List.lookup "md" [("md", mdQuery)] = some query ∧
    ∃ config, mdRegistry "md" = some config ∧
    ∃ tree, (fun (_ : Nat) (_ : List Nat) => some 0) config.language
        (([65, 66, 67, 68, 69].drop 1).take (4 - 1)) = some tree ∧
    ∃ m ∈ (fun (_ : Query) (_ : Nat) => [[(1, 2, 0)]]) query tree,
    ∃ c ∈ m, (((2, 3), "str") : (Nat × Nat) × String).1
        = (1 + c.1, 1 + c.2.1) ∧
      query.capture_names.get? c.2.2 = some "str" :=
  claim9_injection_spans_translated [("md", mdQuery)] mdRegistry
    (fun _ => true) (fun _ _ => some 0) (fun _ _ => [[(1, 2, 0)]])
    [65, 66, 67, 68, 69] (fun n => n) (fun n => n) "md" 1 4
    ((2, 3), "str") (by decide)

/-! ## Claim C10 -/

/-- C10: the injection handler's output is non-overlapping and in order:
each emitted span starts at or after the end of the previously emitted span,
because a sub-parse capture whose translated start lies before the running
`last_end` is dropped (highlighter.rs:478-480). -/
theorem claim10_injection_spans_nonoverlapping
    (injection_queries : List (String × Query))
    (registry : String → Option LanguageConfig)
    (setLanguageOk : Nat → Bool) (subParse : Nat → List Nat → Option Nat)
    (runMatches : Query → Nat → List (List (Nat × Nat × Nat)))
    (text : List Nat) (clipLeft clipRight : Nat → Nat)
    (injection_language : String) (node_start node_end : Nat) :
    spansNonOverlapping (handle_injection injection_queries registry
      setLanguageOk subParse runMatches text clipLeft clipRight
      injection_language node_start node_end) = true := by
  simp only [handle_injection]
  split
  · rfl
  · rename_i query hq
    split
    · rfl
    · split
      · rfl
      · rename_i config hcfg
        split
        · split
          · rfl
          · rename_i tree htr
            obtain ⟨stop, hch⟩ := injectionMatchLoop_chain query.capture_names
              (clipLeft node_start) (clipRight node_end)
              (runMatches query tree) (clipLeft node_start)
            exact leChain_nonOverlapping hch
        · rfl

/-! ## Claim C5: the normalizer is idempotent.  Supporting lemmas. -/

theorem sorted_head_le {l : List Nat} {h0 : Nat} (hs : strictSorted l)
    (hh : l.head? = some h0) : ∀ z ∈ l, h0 ≤ z := by
  cases l with
  | nil => cases hh
  | cons x t =>
    intro z hz
    obtain rfl : x = h0 := by simpa using hh
    rcases List.mem_cons.mp hz with rfl | hz
    · exact Nat.le_refl _
    · exact Nat.le_of_lt (strictSorted_head_lt hs z hz)

theorem sorted_le_getLastD {d : Nat} :
    ∀ {l : List Nat}, strictSorted l → ∀ z ∈ l, z ≤ l.getLastD d := by
  intro l
  induction l with
  | nil => intro _ z hz; cases hz
  | cons x t ih =>
    intro hs z hz
    rw [List.getLastD_cons]
    cases t with
    | nil =>
      rcases List.mem_cons.mp hz with rfl | hz
      · exact Nat.le_refl _
      · cases hz
    | cons y r =>
      rcases List.mem_cons.mp hz with rfl | hz
      · exact le_trans (Nat.le_of_lt hs.1)
          (ih (strictSorted_tail hs) y (List.mem_cons_self _ _))
      · exact ih (strictSorted_tail hs) z hz

theorem strictSorted_append_left :
    ∀ {l1 l2 : List Nat}, strictSorted (l1 ++ l2) → strictSorted l1 := by
  intro l1
  induction l1 with
  | nil => intro _ _; trivial
  | cons x t ih =>
    intro l2 hs
    cases t with
    | nil => trivial
    | cons y r =>
      exact ⟨hs.1, ih (strictSorted_tail hs)⟩

theorem getLastD_append_cons :
    ∀ (l1 : List Nat) (x : Nat) (l2 : List Nat) (d : Nat),
      (l1 ++ x :: l2).getLastD d = (x :: l2).getLastD d := by
  intro l1
  induction l1 with
  | nil => intro x l2 d; rfl
  | cons a t ih =>
    intro x l2 d
    rw [List.cons_append, List.getLastD_cons, ih x l2 a]
    rw [List.getLastD_cons, List.getLastD_cons]

theorem getLastD_append_singleton {d : Nat} :
    ∀ (l : List Nat) (x : Nat), (l ++ [x]).getLastD d = x := by
  intro l x
  rw [getLastD_append_cons l x [] d]
  rfl

theorem sorted_mem_split {e : Nat} :
    ∀ {l : List Nat}, strictSorted l → e ∈ l →
      ∃ l1 l2, l = l1 ++ e :: l2 ∧ (∀ z ∈ l1, z < e) ∧
        strictSorted (e :: l2) := by
  intro l
  induction l with
  | nil => intro _ hm; cases hm
  | cons a t ih =>
    intro hs hm
    rcases List.mem_cons.mp hm with heq | hm2
    · refine ⟨[], t, by simp [heq], ?_, by rw [heq]; exact hs⟩
      intro z hz
      cases hz
    · obtain ⟨l1, l2, heq2, hlt, hsorted⟩ := ih (strictSorted_tail hs) hm2
      refine ⟨a :: l1, l2, by rw [heq2, List.cons_append], ?_, hsorted⟩
      intro z hz
      rcases List.mem_cons.mp hz with heqz | hz2
      · rw [heqz]
        exact strictSorted_head_lt hs e hm2
      · exact hlt z hz2

theorem chain_le {T : List StyledSpan} :
    ∀ {a b : Nat}, ChainCover a b T → SpansStrict T → a ≤ b := by
  induction T with
  | nil =>
    intro a b h _
    exact Nat.le_of_eq h
  | cons sp rest ih =>
    intro a b h hstrict
    obtain ⟨h1, h2⟩ := h
    have hsp := hstrict sp (List.mem_cons_self _ _)
    have := ih h2 (fun s hs => hstrict s (List.mem_cons_of_mem _ hs))
    omega

theorem chain_span_bounds {T : List StyledSpan} :
    ∀ {a b : Nat}, ChainCover a b T → SpansStrict T →
      ∀ sp ∈ T, a ≤ sp.1.1 ∧ sp.1.2 ≤ b := by
  induction T with
  | nil => intro a b _ _ sp hsp; cases hsp
  | cons sp0 rest ih =>
    intro a b h hstrict sp hsp
    obtain ⟨h1, h2⟩ := h
    have hrest : SpansStrict rest := fun s hs => hstrict s (List.mem_cons_of_mem _ hs)
    rcases List.mem_cons.mp hsp with hA | hA
    · rw [hA]
      exact ⟨Nat.le_of_eq h1.symm, chain_le h2 hrest⟩
    · obtain ⟨hl, hr⟩ := ih h2 hrest sp hA
      have hsp0 := hstrict sp0 (List.mem_cons_self _ _)
      constructor
      · omega
      · exact hr

theorem chain_end_mem {T : List StyledSpan} :
    ∀ {a b : Nat}, ChainCover a b T → T ≠ [] → ∃ sp ∈ T, sp.1.2 = b := by
  induction T with
  | nil => intro a b _ hne; exact absurd rfl hne
  | cons sp0 rest ih =>
    intro a b h _
    obtain ⟨h1, h2⟩ := h
    cases rest with
    | nil => exact ⟨sp0, List.mem_cons_self _ _, h2⟩
    | cons r0 rt =>
      obtain ⟨sp, hsp, hend⟩ := ih h2 (by simp)
      exact ⟨sp, List.mem_cons_of_mem _ hsp, hend⟩

theorem chain_pts_not_interior {T : List StyledSpan} :
    ∀ {a b : Nat}, ChainCover a b T → SpansStrict T →
      ∀ sp ∈ T, ∀ sp2 ∈ T, sp2.1.2 ≤ sp.1.1 ∨ sp.1.2 ≤ sp2.1.2 := by
  induction T with
  | nil => intro a b _ _ sp hsp; cases hsp
  | cons sp0 rest ih =>
    intro a b h hstrict sp hsp sp2 hsp2
    obtain ⟨h1, h2⟩ := h
    have hrest : SpansStrict rest := fun s hs => hstrict s (List.mem_cons_of_mem _ hs)
    rcases List.mem_cons.mp hsp with hA | hA
    · rcases List.mem_cons.mp hsp2 with hB | hB
      · rw [hA, hB]
        exact Or.inr (Nat.le_refl _)
      · have hb := chain_span_bounds h2 hrest sp2 hB
        have hs2 := hrest sp2 hB
        rw [hA]
        right
        omega
    · rcases List.mem_cons.mp hsp2 with hB | hB
      · have hb := chain_span_bounds h2 hrest sp hA
        rw [hB]
        exact Or.inl hb.1
      · exact ih h2 hrest sp hA sp2 hB

theorem foldl_topStyleStep_nohit {x y : Nat} :
    ∀ (l : List StyledSpan) (acc : Option HighlightStyle),
      (∀ rs ∈ l, ¬(rs.1.1 ≤ x ∧ y ≤ rs.1.2)) →
      l.foldl (topStyleStep (x, y)) acc = acc := by
  intro l
  induction l with
  | nil => intro acc _; rfl
  | cons rs rest ih =>
    intro acc hno
    rw [List.foldl_cons]
    have hstep : topStyleStep (x, y) acc rs = acc := by
      unfold topStyleStep
      rw [if_neg (hno rs (List.mem_cons_self _ _))]
    rw [hstep]
    exact ih acc (fun s hs => hno s (List.mem_cons_of_mem _ hs))

theorem chain_topStyleFold {T : List StyledSpan} :
    ∀ {a b : Nat}, ChainCover a b T → SpansStrict T →
      ∀ sp ∈ T, ∀ x y, sp.1.1 ≤ x → x < y → y ≤ sp.1.2 →
        topStyleFold (x, y) T = some sp.2 := by
  induction T with
  | nil => intro a b _ _ sp hsp; cases hsp
  | cons sp0 rest ih =>
    intro a b h hstrict sp hsp x y hx hxy hy
    obtain ⟨h1, h2⟩ := h
    have hrest : SpansStrict rest := fun s hs => hstrict s (List.mem_cons_of_mem _ hs)
    rw [topStyleFold, List.foldl_cons]
    rcases List.mem_cons.mp hsp with hA | hA
    · rw [hA] at hx hy ⊢
      have hstep : topStyleStep (x, y) none sp0 = some sp0.2 := by
        unfold topStyleStep
        rw [if_pos ⟨hx, hy⟩]
      rw [hstep]
      apply foldl_topStyleStep_nohit
      intro rs hrs
      have hb := chain_span_bounds h2 hrest rs hrs
      rintro ⟨hc1, hc2⟩
      omega
    · have hb := chain_span_bounds h2 hrest sp hA
      have hstep : topStyleStep (x, y) none sp0 = none := by
        unfold topStyleStep
        split
        · rename_i hcond
          exfalso
          obtain ⟨hc1, hc2⟩ := hcond
          omega
        · rfl
      rw [hstep]
      exact ih h2 hrest sp hA x y hx hxy hy

theorem buildResult_eq_refineOf (styles : List StyledSpan) :
    ∀ (P : List Nat), strictSorted P →
      buildResult styles P
        = refineOf (fun pr => (topStyleFold pr styles).getD {}) P := by
  intro P
  induction P with
  | nil => intro _; rfl
  | cons a t ih =>
    intro hs
    cases t with
    | nil => rfl
    | cons b r =>
      rw [buildResult, if_pos hs.1, refineOf]
      rw [List.singleton_append]
      rw [ih (strictSorted_tail hs)]

theorem mergeAdjacent_cons (sig : List Nat) (last r0 : StyledSpan)
    (rest : List StyledSpan) :
    mergeAdjacent sig last (r0 :: rest)
      = if last.1.2 = r0.1.1 ∧ last.2 = r0.2 ∧ r0.1.1 ∉ sig
        then mergeAdjacent sig ((last.1.1, r0.1.2), last.2) rest
        else last :: mergeAdjacent sig r0 rest := rfl

theorem mergeAdjacent_no_merge (sig : List Nat) (last r0 : StyledSpan)
    (rest : List StyledSpan) (hsig : r0.1.1 ∈ sig) :
    mergeAdjacent sig last (r0 :: rest)
      = last :: mergeAdjacent sig r0 rest := by
  rw [mergeAdjacent_cons, if_neg]
  rintro ⟨-, -, h3⟩
  exact h3 hsig

theorem mergeAdjacent_glue (sig : List Nat) (styleF : Nat × Nat → HighlightStyle)
    (a e : Nat) (s : HighlightStyle)
    (hstyle : ∀ x y, a ≤ x → x < y → y ≤ e → styleF (x, y) = s)
    (hinterior : ∀ z, a < z → z < e → z ∉ sig) :
    ∀ (pts : List Nat) (p : Nat) (suffix : List StyledSpan),
      strictSorted (p :: pts) → pts ≠ [] → (p :: pts).getLastD 0 = e →
      a < p → (∀ z ∈ pts, z ≤ e) →
      mergeAdjacent sig ((a, p), s) (refineOf styleF (p :: pts) ++ suffix)
        = mergeAdjacent sig ((a, e), s) suffix := by
  intro pts
  induction pts with
  | nil => intro p suffix _ hne _ _ _; exact absurd rfl hne
  | cons q rest ih =>
    intro p suffix hs hne hlast hap hle
    cases rest with
    | nil =>
      have hq : q = e := by
        rw [List.getLastD_cons, List.getLastD_cons] at hlast
        exact hlast
      subst hq
      have hpq : p < q := hs.1
      have hsf : styleF (p, q) = s :=
        hstyle p q (Nat.le_of_lt hap) hpq (Nat.le_refl _)
      show mergeAdjacent sig ((a, p), s)
          (((p, q), styleF (p, q)) :: suffix) = _
      rw [hsf, mergeAdjacent_cons, if_pos ⟨rfl, rfl, hinterior p hap hpq⟩]
    | cons q2 rest2 =>
      have hpq : p < q := hs.1
      have hq2 : q < q2 := hs.2.1
      have hq2e : q2 ≤ e := hle q2 (by simp)
      have hqe : q < e := by omega
      have hsf : styleF (p, q) = s :=
        hstyle p q (Nat.le_of_lt hap) hpq (Nat.le_of_lt hqe)
      show mergeAdjacent sig ((a, p), s)
          (((p, q), styleF (p, q)) ::
            (refineOf styleF (q :: q2 :: rest2) ++ suffix)) = _
      rw [hsf, mergeAdjacent_cons, if_pos ⟨rfl, rfl, hinterior p hap (by omega)⟩]
      have h1 : (q :: q2 :: rest2).getLastD 0 = e := by
        rw [List.getLastD_cons] at hlast
        rw [List.getLastD_cons] at hlast
        rw [List.getLastD_cons]
        exact hlast
      have h2 : ∀ z ∈ q2 :: rest2, z ≤ e := by
        intro z hz
        exact hle z (List.mem_cons_of_mem _ hz)
      exact ih q suffix hs.2 (by simp) h1 (by omega) h2

theorem refineOf_append (styleF : Nat × Nat → HighlightStyle) :
    ∀ (l1 : List Nat) (x : Nat) (l2 : List Nat),
      refineOf styleF (l1 ++ x :: l2)
        = refineOf styleF (l1 ++ [x]) ++ refineOf styleF (x :: l2) := by
  intro l1
  induction l1 with
  | nil => intro x l2; rfl
  | cons a t ih =>
    intro x l2
    cases t with
    | nil => rfl
    | cons a2 t2 =>
      have h1 : refineOf styleF ((a :: a2 :: t2) ++ x :: l2)
          = ((a, a2), styleF (a, a2))
            :: refineOf styleF ((a2 :: t2) ++ x :: l2) := rfl
      have h2 : refineOf styleF ((a :: a2 :: t2) ++ [x])
          = ((a, a2), styleF (a, a2))
            :: refineOf styleF ((a2 :: t2) ++ [x]) := rfl
      rw [h1, h2, ih x l2]
      exact (List.cons_append _ _ _).symm

theorem mergeAdjacent_rebuild (sig : List Nat)
    (styleF : Nat × Nat → HighlightStyle) :
    ∀ (T : List StyledSpan) (a b : Nat) (P : List Nat),
      T ≠ [] → ChainCover a b T → SpansStrict T →
      (∀ sp ∈ T, sp.1.2 ∈ sig) →
      (∀ sp ∈ T, ∀ z ∈ sig, z ≤ sp.1.1 ∨ sp.1.2 ≤ z) →
      (∀ sp ∈ T, ∀ x y, sp.1.1 ≤ x → x < y → y ≤ sp.1.2 →
        styleF (x, y) = sp.2) →
      strictSorted P → P.head? = some a → P.getLastD 0 = b →
      (∀ sp ∈ T, sp.1.2 ∈ P) →
      (∀ z ∈ P, a ≤ z ∧ z ≤ b) →
      (match refineOf styleF P with
       | [] => ([] : List StyledSpan)
       | x :: xs => mergeAdjacent sig x xs) = T := by
  intro T
  induction T with
  | nil => intro a b P hne _ _ _ _ _ _ _ _ _ _; exact absurd rfl hne
  | cons sp0 T2 ih =>
    intro a b P _ hchain hstrict hends hsig hF hsortP hhead hlastP hmemP hbound
    obtain ⟨hc1, hc2⟩ := hchain
    have hsp0mem : sp0 ∈ sp0 :: T2 := List.mem_cons_self _ _
    have hsp0st := hstrict sp0 hsp0mem
    have hae : a < sp0.1.2 := by omega
    have hstyle1 : ∀ x y, a ≤ x → x < y → y ≤ sp0.1.2 →
        styleF (x, y) = sp0.2 := by
      intro x y hx hxy hy
      exact hF sp0 hsp0mem x y (by omega) hxy hy
    have hint1 : ∀ z, a < z → z < sp0.1.2 → z ∉ sig := by
      intro z hz1 hz2 hzin
      rcases hsig sp0 hsp0mem z hzin with h | h
      · omega
      · omega
    have heP : sp0.1.2 ∈ P := hmemP sp0 hsp0mem
    obtain ⟨L1, L2, hPeq, hL1lt, hsortE⟩ := sorted_mem_split hsortP heP
    subst hPeq
    cases L1 with
    | nil =>
      exfalso
      have : sp0.1.2 = a := by simpa using hhead
      omega
    | cons a1 mid =>
      have ha1 : a1 = a := by
        have hh : ((a1 :: mid) ++ sp0.1.2 :: L2).head? = some a1 := rfl
        rw [hh] at hhead
        exact Option.some.inj hhead
      subst ha1
      cases T2 with
      | nil =>
        have hb : sp0.1.2 = b := hc2
        have hL2 : L2 = [] := by
          cases L2 with
          | nil => rfl
          | cons z0 zl =>
            exfalso
            have hz0P : z0 ∈ (a1 :: mid) ++ sp0.1.2 :: z0 :: zl := by simp
            have hzb := (hbound z0 hz0P).2
            have hlt : sp0.1.2 < z0 := hsortE.1
            omega
        subst hL2
        cases mid with
        | nil =>
          show mergeAdjacent sig ((a1, sp0.1.2), styleF (a1, sp0.1.2)) []
              = [sp0]
          rw [hstyle1 a1 sp0.1.2 (Nat.le_refl _) hae (Nat.le_refl _)]
          show [((a1, sp0.1.2), sp0.2)] = [sp0]
          rw [← hc1]
        | cons m1 mid2 =>
          have ham1 : a1 < m1 := hsortP.1
          have hm1e : m1 ≤ sp0.1.2 := by
            have := hL1lt m1 (by simp)
            omega
          show mergeAdjacent sig ((a1, m1), styleF (a1, m1))
              (refineOf styleF (m1 :: (mid2 ++ [sp0.1.2]))) = [sp0]
          rw [hstyle1 a1 m1 (Nat.le_refl _) ham1 hm1e]
          rw [← List.append_nil
            (refineOf styleF (m1 :: (mid2 ++ [sp0.1.2])))]
          rw [mergeAdjacent_glue sig styleF a1 sp0.1.2 sp0.2 hstyle1 hint1
            (mid2 ++ [sp0.1.2]) m1 [] (strictSorted_tail hsortP) (by simp)
            (by rw [List.getLastD_cons, getLastD_append_singleton])
            ham1 ?hle1]
          case hle1 =>
            intro z hz
            rcases List.mem_append.mp hz with hz | hz
            · exact Nat.le_of_lt (hL1lt z (by simp [hz]))
            · rw [List.mem_singleton.mp hz]
          show [((a1, sp0.1.2), sp0.2)] = [sp0]
          rw [← hc1]
      | cons t0 T3 =>
        have hstrictT2 : SpansStrict (t0 :: T3) :=
          fun s hs => hstrict s (List.mem_cons_of_mem _ hs)
        have hbndt0 := chain_span_bounds hc2 hstrictT2 t0 (List.mem_cons_self _ _)
        have ht0st := hstrictT2 t0 (List.mem_cons_self _ _)
        have heb : sp0.1.2 < b := by omega
        have hlast2 : (sp0.1.2 :: L2).getLastD 0 = b := by
          rw [getLastD_append_cons] at hlastP
          exact hlastP
        cases L2 with
        | nil =>
          exfalso
          have : sp0.1.2 = b := hlast2
          omega
        | cons p1 L2b =>
          have hesig : sp0.1.2 ∈ sig := hends sp0 hsp0mem
          have hih := ih sp0.1.2 b (sp0.1.2 :: p1 :: L2b) (by simp) hc2
            hstrictT2
            (fun sp hsp => hends sp (List.mem_cons_of_mem _ hsp))
            (fun sp hsp => hsig sp (List.mem_cons_of_mem _ hsp))
            (fun sp hsp => hF sp (List.mem_cons_of_mem _ hsp))
            hsortE rfl hlast2 ?memT2 ?bndP2
          case memT2 =>
            intro sp hsp
            have hspP := hmemP sp (List.mem_cons_of_mem _ hsp)
            have hspb := chain_span_bounds hc2 hstrictT2 sp hsp
            have hspst := hstrictT2 sp hsp
            rcases List.mem_append.mp hspP with hin | hin
            · exfalso
              have := hL1lt sp.1.2 hin
              omega
            · exact hin
          case bndP2 =>
            intro z hz
            rcases List.mem_cons.mp hz with heqz | hz2
            · constructor
              · exact Nat.le_of_eq heqz.symm
              · rw [heqz]
                exact Nat.le_of_lt heb
            · constructor
              · exact Nat.le_of_lt (strictSorted_head_lt hsortE z hz2)
              · have hzP : z ∈ (a1 :: mid) ++ sp0.1.2 :: p1 :: L2b := by
                  rcases List.mem_cons.mp hz2 with h | h
                  · rw [h]; simp
                  · simp [h]
                exact (hbound z hzP).2
          have hih2 : mergeAdjacent sig
              ((sp0.1.2, p1), styleF (sp0.1.2, p1))
              (refineOf styleF (p1 :: L2b)) = t0 :: T3 := hih
          cases mid with
          | nil =>
            show mergeAdjacent sig ((a1, sp0.1.2), styleF (a1, sp0.1.2))
                (((sp0.1.2, p1), styleF (sp0.1.2, p1))
                  :: refineOf styleF (p1 :: L2b)) = sp0 :: t0 :: T3
            rw [hstyle1 a1 sp0.1.2 (Nat.le_refl _) hae (Nat.le_refl _)]
            rw [mergeAdjacent_no_merge sig _ _ _ hesig]
            rw [hih2, ← hc1]
          | cons m1 mid2 =>
            have ham1 : a1 < m1 := hsortP.1
            have hm1e : m1 ≤ sp0.1.2 := by
              have := hL1lt m1 (by simp)
              omega
            have hsplit := refineOf_append styleF (a1 :: m1 :: mid2)
              sp0.1.2 (p1 :: L2b)
            rw [hsplit]
            show mergeAdjacent sig ((a1, m1), styleF (a1, m1))
                (refineOf styleF (m1 :: (mid2 ++ [sp0.1.2]))
                  ++ refineOf styleF (sp0.1.2 :: p1 :: L2b)) = sp0 :: t0 :: T3
            rw [hstyle1 a1 m1 (Nat.le_refl _) ham1 hm1e]
            have hsortBig : strictSorted
                ((a1 :: m1 :: (mid2 ++ [sp0.1.2])) ++ (p1 :: L2b)) := by
              have heq : (a1 :: m1 :: mid2) ++ sp0.1.2 :: p1 :: L2b
                  = (a1 :: m1 :: (mid2 ++ [sp0.1.2])) ++ (p1 :: L2b) := by
                simp
              rw [← heq]
              exact hsortP
            rw [mergeAdjacent_glue sig styleF a1 sp0.1.2 sp0.2 hstyle1 hint1
              (mid2 ++ [sp0.1.2]) m1 _
              (strictSorted_tail (strictSorted_append_left hsortBig)) (by simp)
              (by rw [List.getLastD_cons, getLastD_append_singleton])
              ham1 ?hle2]
            case hle2 =>
              intro z hz
              rcases List.mem_append.mp hz with hz | hz
              · exact Nat.le_of_lt (hL1lt z (by simp [hz]))
              · rw [List.mem_singleton.mp hz]
            show mergeAdjacent sig ((a1, sp0.1.2), sp0.2)
                (((sp0.1.2, p1), styleF (sp0.1.2, p1))
                  :: refineOf styleF (p1 :: L2b)) = sp0 :: t0 :: T3
            rw [mergeAdjacent_no_merge sig _ _ _ hesig]
            rw [hih2, ← hc1]

/-- C5: the interval normalizer is idempotent — renormalizing its own output
over the same total range returns that output unchanged. -/
theorem claim5_normalize_idempotent (R : Nat × Nat) (S : List StyledSpan) :
    unique_styles R (unique_styles R S) = unique_styles R S := by
  cases S with
  | nil => rfl
  | cons s0 S2 =>
    cases hT : unique_styles R (s0 :: S2) with
    | nil => rfl
    | cons t0 T2 =>
      have hSne : (s0 :: S2) ≠ [] := by simp
      have hIne : intervalsOf R (s0 :: S2) ≠ [] := by
        intro h
        have hm : R.1 ∈ intervalsOf R (s0 :: S2) := mem_intervalsOf.mpr (Or.inl rfl)
        rw [h] at hm
        cases hm
      obtain ⟨i0, irest, hI⟩ := List.exists_cons_of_ne_nil hIne
      have ha : (intervalsOf R (s0 :: S2)).head? = some i0 := by rw [hI]; rfl
      obtain ⟨hchain, hstrict⟩ := unique_styles_chain hSne ha rfl
      rw [hT] at hchain hstrict
      have hsortI : strictSorted (intervalsOf R (s0 :: S2)) :=
        intervalsOf_strictSorted R _
      have hi0le : ∀ z ∈ intervalsOf R (s0 :: S2), i0 ≤ z :=
        sorted_head_le hsortI ha
      have hzleb : ∀ z ∈ intervalsOf R (s0 :: S2),
          z ≤ (intervalsOf R (s0 :: S2)).getLastD 0 :=
        sorted_le_getLastD hsortI
      have hR1m : R.1 ∈ intervalsOf R (s0 :: S2) := mem_intervalsOf.mpr (Or.inl rfl)
      have hR2m : R.2 ∈ intervalsOf R (s0 :: S2) :=
        mem_intervalsOf.mpr (Or.inr (Or.inl rfl))
      have hTne : (t0 :: T2) ≠ [] := by simp
      have hsortP2 : strictSorted (intervalsOf R (t0 :: T2)) :=
        intervalsOf_strictSorted R _
      have hminP2 : ∀ z ∈ intervalsOf R (t0 :: T2), i0 ≤ z := by
        intro z hz
        rcases mem_intervalsOf.mp hz with rfl | rfl | ⟨rs, hrs, hcase⟩
        · exact hi0le R.1 hR1m
        · exact hi0le R.2 hR2m
        · have hbnd := chain_span_bounds hchain hstrict rs hrs
          have hst := hstrict rs hrs
          rcases hcase with rfl | rfl
          · exact hbnd.1
          · omega
      have hmaxP2 : ∀ z ∈ intervalsOf R (t0 :: T2),
          z ≤ (intervalsOf R (s0 :: S2)).getLastD 0 := by
        intro z hz
        rcases mem_intervalsOf.mp hz with rfl | rfl | ⟨rs, hrs, hcase⟩
        · exact hzleb R.1 hR1m
        · exact hzleb R.2 hR2m
        · have hbnd := chain_span_bounds hchain hstrict rs hrs
          have hst := hstrict rs hrs
          rcases hcase with rfl | rfl
          · omega
          · exact hbnd.2
      have hheadP2 : (intervalsOf R (t0 :: T2)).head? = some i0 := by
        apply head_eq_of_min hsortP2 ?_ hminP2
        exact mem_intervalsOf.mpr (Or.inr (Or.inr
          ⟨t0, List.mem_cons_self _ _, Or.inl hchain.1.symm⟩))
      have hlastP2 : (intervalsOf R (t0 :: T2)).getLastD 0
          = (intervalsOf R (s0 :: S2)).getLastD 0 := by
        apply getLastD_eq_of_max hsortP2 ?_ hmaxP2
        obtain ⟨sp, hsp, hspe⟩ := chain_end_mem hchain hTne
        exact mem_intervalsOf.mpr (Or.inr (Or.inr ⟨sp, hsp, Or.inr hspe.symm⟩))
      show (match buildResult (t0 :: T2) (intervalsOf R (t0 :: T2)) with
            | [] => ([] : List StyledSpan)
            | x :: xs => mergeAdjacent (significantOf (t0 :: T2)) x xs)
          = t0 :: T2
      rw [buildResult_eq_refineOf (t0 :: T2) _ hsortP2]
      apply mergeAdjacent_rebuild (significantOf (t0 :: T2))
        (fun pr => (topStyleFold pr (t0 :: T2)).getD {}) (t0 :: T2) i0
        ((intervalsOf R (s0 :: S2)).getLastD 0) (intervalsOf R (t0 :: T2))
        hTne hchain hstrict ?ends ?avoid ?styleok hsortP2 hheadP2 hlastP2
        ?endsP2 ?boundsP2
      case ends =>
        intro sp hsp
        exact List.mem_map.mpr ⟨sp, hsp, rfl⟩
      case avoid =>
        intro sp hsp z hz
        obtain ⟨sp2, hsp2, rfl⟩ := List.mem_map.mp hz
        exact chain_pts_not_interior hchain hstrict sp hsp sp2 hsp2
      case styleok =>
        intro sp hsp x y hx hxy hy
        show (topStyleFold (x, y) (t0 :: T2)).getD {} = sp.2
        rw [chain_topStyleFold hchain hstrict sp hsp x y hx hxy hy]
        rfl
      case endsP2 =>
        intro sp hsp
        exact mem_intervalsOf.mpr (Or.inr (Or.inr ⟨sp, hsp, Or.inr rfl⟩))
      case boundsP2 =>
        intro z hz
        exact ⟨hminP2 z hz, hmaxP2 z hz⟩
